import Mathlib

/-!
Verification of the intent-resolution and product-matching pipeline of a
conversational shopping assistant (`adk-agents/concierge_coordinator.py`,
`mcp-server/server.py`, `streamlit-ui/app.py`).

Shallow embedding conventions:
* Python strings are modelled as `List Char` (`Str`); lowercasing is the
  ASCII mapping of `Char.toLower`, which agrees with Python `str.lower`
  on ASCII text (non-ASCII lowercasing is not modelled).
* Python float scores are modelled exactly as rationals (`ℚ`); the code
  only adds, multiplies and divides small decimal constants, so ordering
  facts proved over `ℚ` reflect the intended real-number semantics.
* `difflib.SequenceMatcher.ratio` is modelled by `ratio` below, following
  the Ratcliff/Obershelp recursion used by CPython (`find_longest_match`
  picks a longest matching block, earliest in `a`, then earliest in `b`,
  and recurses on both sides).  The `autojunk` heuristic, which only
  changes behaviour for second arguments of 200 or more characters, is
  not modelled; the bounds proved here (`0 ≤ ratio ≤ 1`) do not depend
  on the block-selection heuristic.
* Python `list.sort(key=..., reverse=True)` is stable; its result is the
  unique stable descending order, modelled by insertion sort
  (`sortByScoreDesc`).
* `list(set(xs))` enumerates the distinct elements in an unspecified
  order; it is modelled as `List.eraseDup` (first occurrences kept).
  Every use below either sums over the list or takes its length, and
  both are invariant under reordering, so the model is faithful.
-/

set_option maxRecDepth 100000

/-- Python strings, modelled as lists of characters. -/
abbrev Str := List Char

/-- Coerce a Lean string literal to the `List Char` model. -/
def cs (s : String) : Str := s.data

/-- ASCII lowercasing of a whole string (Python `str.lower`). -/
def lowerStr (s : Str) : Str := s.map Char.toLower

/-- The characters Python `\s` and `str.split()` treat as whitespace (ASCII). -/
def isSpaceB (c : Char) : Bool :=
  c = ' ' || c = '\t' || c = '\n' || c = '\r' || c = '\x0b' || c = '\x0c'

/-- Python `needle in haystack`: contiguous-substring test. -/
def isSubstr : Str → Str → Bool
  | n, h =>
    if n.isPrefixOf h then true
    else
      match h with
      | [] => false
      | _ :: t => isSubstr n t

/-- Helper for `splitWs`: `acc` is the current word, reversed. -/
def splitWsAux : Str → Str → List Str
  | [], acc => if acc = [] then [] else [acc.reverse]
  | c :: rest, acc =>
    if isSpaceB c then
      if acc = [] then splitWsAux rest [] else acc.reverse :: splitWsAux rest []
    else splitWsAux rest (c :: acc)

/-- Python `s.split()`: split on whitespace runs, dropping empty pieces. -/
def splitWs (s : Str) : List Str := splitWsAux s []

/-- Python `' '.join(words)`. -/
def joinWs : List Str → Str
  | [] => []
  | [w] => w
  | w :: ws => w ++ ' ' :: joinWs ws

/-- Python `s.strip()`: drop leading and trailing whitespace. -/
def stripWs (s : Str) : Str :=
  ((s.dropWhile isSpaceB).reverse.dropWhile isSpaceB).reverse

/-- Python `s.rstrip('s')`: drop every trailing `'s'`. -/
def rstripS (s : Str) : Str :=
  (s.reverse.dropWhile (fun c => c = 's')).reverse

/-- Does the string end with the given suffix (Python `str.endswith`)? -/
def endsWith (s suf : Str) : Bool := suf.isSuffixOf s

/-! ### `difflib.SequenceMatcher` (Ratcliff/Obershelp similarity)

`lcpLen` is the longest common prefix; `flm` is `find_longest_match` over
whole strings (longest block, earliest in `a`, then earliest in `b` —
CPython keeps a candidate only when strictly longer, scanning `i` then `j`
in increasing order, which realises exactly that tie-break); `matchTotal`
sums the sizes of all matching blocks of the recursive decomposition.
The recursion is expressed with explicit fuel `|a| + |b|` so that it is
structural (kernel-evaluable): each recursive call strictly decreases
`|a| + |b|`, and when the fuel hits zero both strings are empty and the
true total is `0` anyway, so the fuel never changes the value. -/

/-- Length of the longest common prefix of two strings. -/
def lcpLen : Str → Str → Nat
  | a :: as, b :: bs => if a = b then lcpLen as bs + 1 else 0
  | _, _ => 0

/-- `find_longest_match` over whole strings: returns `(i, j, k)` with
`a[i:i+k] == b[j:j+k]`, `k` maximal, then `i` minimal, then `j` minimal;
`(0, 0, 0)` when there is no nonempty common substring. -/
def flm (a b : Str) : Nat × Nat × Nat :=
  (List.range a.length).foldl
    (fun best i =>
      (List.range b.length).foldl
        (fun best j =>
          let k := lcpLen (a.drop i) (b.drop j)
          if best.2.2 < k then (i, j, k) else best)
        best)
    (0, 0, 0)

/-- Total size of all matching blocks, with explicit fuel. -/
def matchTotalF : Nat → Str → Str → Nat
  | 0, _, _ => 0
  | fuel + 1, a, b =>
    let r := flm a b
    if r.2.2 = 0 then 0
    else
      matchTotalF fuel (a.take r.1) (b.take r.2.1) + r.2.2 +
        matchTotalF fuel (a.drop (r.1 + r.2.2)) (b.drop (r.2.1 + r.2.2))

/-- Total number of matched characters (`sum of block sizes` in difflib). -/
def matchTotal (a b : Str) : Nat := matchTotalF (a.length + b.length) a b

/-- `SequenceMatcher(None, a, b).ratio()`: `2M / T`, and `1` when both
strings are empty (difflib `_calculate_ratio`). -/
def ratio (a b : Str) : ℚ :=
  if a.length + b.length = 0 then 1
  else 2 * (matchTotal a b : ℚ) / ((a.length : ℚ) + (b.length : ℚ))

/-! ### Data model

A catalog product.  The matcher reads `name`, `description` and
`categories`; the price fields carry the backends currency-subunit
representation (`units` dollars plus `nanos` billionths).  The transient
`_similarity` annotation used by the Python code is set and then popped
before any product is returned, so products are modelled immutably and
the score is computed by a separate function. -/
structure Product where
  id : Str
  name : Str
  description : Str
  categories : List Str
  priceUnits : Nat := 0
  priceNanos : Nat := 0
deriving DecidableEq

/-- `searchable_text = f"{name_lower} {desc_lower} {categories_lower}"`. -/
def searchableText (p : Product) : Str :=
  lowerStr p.name ++ [' '] ++ lowerStr p.description ++ [' '] ++
    lowerStr (joinWs p.categories)

/-- Word-overlap contribution of one query word against the searchable
text: `+1` for a verbatim hit, else `+0.7` when the word is inside some
long (`> 2` chars) word of the text, else `+0.5` when some long word of
the text is inside it, else `0`.  Shared verbatim by
`fuzzy_match_products` (concierge) and `enhanced_fuzzy_match_products`
(mcp-server, which spells the length test `>= 3`). -/
def wordPoints (w searchable : Str) : ℚ :=
  if isSubstr w searchable then 1
  else if (splitWs searchable).any (fun t => decide (t.length > 2) && isSubstr w t) then
    7 / 10
  else if (splitWs searchable).any (fun t => decide (t.length > 2) && isSubstr t w) then
    1 / 2
  else 0

/-- The `max_similarity` loop shared by both matchers: maximum
`SequenceMatcher` ratio of every query variant against name,
description, and category text, starting from `0`. -/
def directSimilarity (variants : List Str) (p : Product) : ℚ :=
  variants.foldl
    (fun m v =>
      max (max (max m (ratio v (lowerStr p.name))) (ratio v (lowerStr p.description)))
        (ratio v (lowerStr (joinWs p.categories))))
    0

/-- Stable insertion into a descending-sorted list: the new element goes
before the first element of score `≤` its own, hence after every
earlier-arrived element of strictly greater or equal score once combined
with `sortByScoreDesc`. -/
def insertDescBy {α : Type} (f : α → ℚ) (x : α) : List α → List α
  | [] => [x]
  | y :: ys => if f y ≤ f x then x :: y :: ys else y :: insertDescBy f x ys

/-- Stable descending sort by score — the unique stable descending
order, which is what Python `list.sort(key=..., reverse=True)` returns. -/
def sortByScoreDesc {α : Type} (f : α → ℚ) : List α → List α
  | [] => []
  | x :: xs => insertDescBy f x (sortByScoreDesc f xs)

namespace Concierge

/-! Definitions translated from `adk-agents/concierge_coordinator.py`. -/

/-- Query-variant generation of `fuzzy_match_products`
(concierge_coordinator.py, lines 135–148); `q` is the already
lowercased and stripped query.  `rstrip('s')` removes every trailing
`'s'`, and `[:-2]` drops the last two characters. -/
def queryVariants (q : Str) : List Str :=
  if endsWith q (cs "s") && decide (q.length > 3) then
    [q, rstripS q] ++
      (if endsWith q (cs "es") && decide (q.length > 4) then [q.take (q.length - 2)]
       else [])
  else
    [q, q ++ cs "s"] ++ (if !endsWith q (cs "e") then [q ++ cs "es"] else [])

/-- `query_words = list(set([w for w in words if len(w) > 2]))`:
split every variant, keep words longer than 2 characters, deduplicate.
The Python set enumeration order is unspecified; the word list is only
ever summed over and counted, so first-occurrence order is a faithful
model. -/
def queryWords (variants : List Str) : List Str :=
  ((variants.map splitWs).flatten.filter (fun w => decide (w.length > 2))).eraseDups

/-- The damped word-overlap signal (`word_score * 0.9`) of
`fuzzy_match_products` (concierge_coordinator.py): accumulated word
points divided by the number of (length-filtered, deduplicated) query
words, then damped by `0.9`. -/
def wordSignal (q : Str) (p : Product) : ℚ :=
  let qwords := queryWords (queryVariants (stripWs (lowerStr q)))
  (((qwords.map (fun w => wordPoints w (searchableText p))).sum) /
      (qwords.length : ℚ)) *
    (9 / 10)

/-- Final per-product score of `fuzzy_match_products`
(concierge_coordinator.py): max of direct variant similarity, damped
word-overlap score (when there are query words), and the 0.8
name-substring floor. -/
def productScore (q : Str) (p : Product) : ℚ :=
  let ql := stripWs (lowerStr q)
  let variants := queryVariants ql
  let qwords := queryWords variants
  let m1 := directSimilarity variants p
  let m2 := if qwords.isEmpty then m1 else max m1 (wordSignal q p)
  if variants.any (fun v => isSubstr v (lowerStr p.name)) then max m2 (4 / 5) else m2

/-- `fuzzy_match_products(query, products, threshold=0.6)`
(concierge_coordinator.py): keep products scoring at least `threshold`,
stably sorted by descending score. -/
def fuzzy_match_products (query : Str) (products : List Product) (threshold : ℚ) :
    List Product :=
  sortByScoreDesc (productScore query)
    (products.filter (fun p => decide (threshold ≤ productScore query p)))

end Concierge

namespace MCPServer

/-! Definitions translated from `mcp-server/server.py`. -/

/-- Query-variant generation of `enhanced_fuzzy_match_products`
(server.py, lines 134–150).  Unlike the concierge version, the
non-`s`-ending branch appends BOTH `q + "s"` and `q + "es"`,
with no check that the query does not end in `"e"`. -/
def queryVariants (q : Str) : List Str :=
  if endsWith q (cs "s") && decide (q.length > 3) then
    [q, rstripS q] ++
      (if endsWith q (cs "es") && decide (q.length > 4) then [q.take (q.length - 2)]
       else [])
  else [q, q ++ cs "s", q ++ cs "es"]

/-- `query_words = list(set(query_words))` (server.py, line 156):
deduplicated words of all variants, with NO length filter. -/
def queryWords (variants : List Str) : List Str :=
  (variants.map splitWs).flatten.eraseDups

/-- The damped word-overlap signal (`word_score * 0.9`) of
`enhanced_fuzzy_match_products` (server.py): only words of length at
least 3 earn points, but the divisor is the size of the whole
(unfiltered) deduplicated word set. -/
def wordSignal (q : Str) (p : Product) : ℚ :=
  let qwords := queryWords (queryVariants (stripWs (lowerStr q)))
  (if 0 < qwords.length then
    ((qwords.map (fun w =>
        if decide (3 ≤ w.length) then wordPoints w (searchableText p) else 0)).sum) /
      (qwords.length : ℚ)
   else 0) *
    (9 / 10)

/-- Final per-product score of `enhanced_fuzzy_match_products`
(server.py): max of direct variant similarity, damped word overlap,
the 0.8 category boost, and the 0.8 name-substring floor. -/
def enhancedScore (q : Str) (p : Product) : ℚ :=
  let ql := stripWs (lowerStr q)
  let variants := queryVariants ql
  let m1 := directSimilarity variants p
  let catScore :=
    if p.categories.any (fun cat =>
        variants.any (fun v => isSubstr v (lowerStr cat) || isSubstr (lowerStr cat) v))
    then (4 : ℚ) / 5 else 0
  let final := max (max m1 (wordSignal q p)) catScore
  if variants.any (fun v => isSubstr v (lowerStr p.name)) then max final (4 / 5)
  else final

/-- `enhanced_fuzzy_match_products(query, products, threshold=0.4)`
(server.py). -/
def enhanced_fuzzy_match_products (query : Str) (products : List Product)
    (threshold : ℚ) : List Product :=
  sortByScoreDesc (enhancedScore query)
    (products.filter (fun p => decide (threshold ≤ enhancedScore query p)))

/-- Per-product score of the restored original `fuzzy_match_products`
(server.py, lines 228–272): no variants, no strip, max of name ratio,
description ratio and a name/description word score. -/
def basicScore (q : Str) (p : Product) : ℚ :=
  let ql := lowerStr q
  let name := lowerStr p.name
  let desc := lowerStr p.description
  let nameSim := ratio ql name
  let descSim := ratio ql desc
  let qwords := splitWs ql
  let nameWords := splitWs name
  let descWords := splitWs desc
  let wordMatches :=
    (qwords.map (fun w =>
      if nameWords.any (fun t => isSubstr w t) then (1 : ℚ)
      else if descWords.any (fun t => isSubstr w t) then 1 / 2
      else 0)).sum
  let wordScore := if qwords.isEmpty then 0 else wordMatches / (qwords.length : ℚ)
  max (max nameSim descSim) wordScore

/-- `fuzzy_match_products(query, products, threshold=0.6)` (server.py). -/
def fuzzy_match_products (query : Str) (products : List Product) (threshold : ℚ) :
    List Product :=
  sortByScoreDesc (basicScore query)
    (products.filter (fun p => decide (threshold ≤ basicScore query p)))

end MCPServer

/-! ### Sample catalog used in concrete test properties -/

/-- A product named exactly "Running Shoes" (cf. spec section 8). -/
def runningShoes : Product :=
  { id := cs "SHOE1234"
    name := cs "Running Shoes"
    description := cs "Light running shoes"
    categories := [cs "footwear"]
    priceUnits := 55
    priceNanos := 0 }

/-- A second catalog product, used to make ranking non-vacuous. -/
def blueJacket : Product :=
  { id := cs "JKT567890"
    name := cs "Blue Jacket"
    description := cs "Warm jacket"
    categories := [cs "clothing"]
    priceUnits := 80
    priceNanos := 0 }

/-- Word-overlap signal exactly as the spec words it (section 4.5 step 4,
claim C3): tokenize all query variants into a deduplicated word set
keeping only words longer than 2 characters, accumulate the per-word
points, divide by the number of query words, and damp by 0.9.  This is
the refinement-side definition, to be compared with the code-side
`Concierge.wordSignal` and `MCPServer.wordSignal`. -/
def specWordOverlap (variants : List Str) (p : Product) : ℚ :=
  let ws := ((variants.map splitWs).flatten.filter
    (fun w => decide (w.length > 2))).eraseDups
  (((ws.map (fun w => wordPoints w (searchableText p))).sum) / (ws.length : ℚ)) *
    (9 / 10)

/-- A small product used by the C3 counterexample. -/
def cupProduct : Product :=
  { id := cs "CUP00001", name := cs "cup", description := cs "", categories := [] }

/-! ### Claim C5: intent classification -/

namespace Concierge

/-- `SemanticSearchEngine.intent_patterns`
(concierge_coordinator.py, lines 235–256), in dict insertion order —
Python dicts iterate in insertion order, so this list order is exactly
the order `classify_intent` scans.  The intent names are the code's
strings: Search = "search", ViewCart = "cart_view",
AddToCart = "cart_add", Recommend = "recommendations", Help = "help". -/
def intent_patterns : List (Str × List Str) :=
  [ (cs "search",
     [cs "find", cs "search", cs "look for", cs "show me", cs "get me",
      cs "i need", cs "i want", cs "looking for", cs "searching for",
      cs "where can i find", cs "do you have"]),
    (cs "cart_view",
     [cs "cart", cs "basket", cs "my items", cs "what do i have",
      cs "show cart", cs "view cart", cs "check cart", cs "my bag"]),
    (cs "cart_add",
     [cs "add to cart", cs "buy", cs "purchase", cs "get this",
      cs "i\x27ll take", cs "put in cart", cs "add this", cs "buy this"]),
    (cs "recommendations",
     [cs "recommend", cs "suggest", cs "what should i buy", cs "surprise me",
      cs "what\x27s good", cs "what\x27s popular", cs "best sellers",
      cs "top rated"]),
    (cs "help",
     [cs "help", cs "what can you do", cs "how does this work",
      cs "instructions", cs "commands", cs "options",
      cs "what are my choices"]) ]

/-- `SemanticSearchEngine.classify_intent` (concierge_coordinator.py,
lines 370–400) in the no-embedding-backend configuration (`self.model`
is `None`, so the semantic branch is skipped): return the first intent
whose pattern list has a substring hit in the lowercased text,
defaulting to `"search"`. -/
def classify_intent (text : Str) : Str :=
  let text_lower := lowerStr text
  match intent_patterns.find?
      (fun ip => ip.2.any (fun pat => isSubstr pat text_lower)) with
  | some ip => ip.1
  | none => cs "search"

end Concierge

/-! ### Claim C6: text normalisation is idempotent -/

namespace Concierge

/-- The fixed stop-word set of `SemanticSearchEngine.preprocess_text`
(concierge_coordinator.py, line 265). -/
def stop_words : List Str :=
  [cs "the", cs "a", cs "an", cs "and", cs "or", cs "but", cs "in",
   cs "on", cs "at", cs "to", cs "for", cs "of", cs "with", cs "by"]

/-- `SemanticSearchEngine.preprocess_text` (concierge_coordinator.py,
lines 258–271): empty text maps to empty; otherwise lowercase, strip,
collapse whitespace, split into words, drop stop-words unless the
sentence has 3 words or fewer, and re-join with single spaces.  The
`strip` and the `re.sub(r"\s+", " ", ...)` collapse only normalise the
separators that `str.split()` then discards, so the word list is
exactly `splitWs` of the lowercased input and the join reproduces the
collapsed, stripped form. -/
def preprocess_text (t : Str) : Str :=
  if t = [] then []
  else
    let words := splitWs (lowerStr t)
    let kept := words.filter
      (fun w => !stop_words.contains w || decide (words.length ≤ 3))
    joinWs kept

end Concierge

/-! ### Claim C7: product-id extraction

`ShoppingAgent._extract_product_id` (concierge_coordinator.py, lines
1130–1147) tries three regexes in order, each compiled with
`re.IGNORECASE`; a match is returned only if it passes the validation
(length at least 8, not a denylisted category word, and containing an
uppercase letter or digit), otherwise the next pattern is tried.  The
regexes are modelled positionally: `re.search` scans start positions
left to right, and the `{8,15}` quantifier is greedy, so at each
position the longest class run (15 down to 8) satisfying the trailing
context is taken.  Greedy modelling of `\s*:?\s*` is complete because
no character can be consumed both by `\s*` and by the id class or the
colon.  Python `\w` (for `\b`) is modelled over ASCII. -/

namespace Concierge

/-- The class `[A-Z0-9_-]` under `re.IGNORECASE`: ASCII letters,
digits, underscore, hyphen. -/
def isIdChar (c : Char) : Bool :=
  (65 ≤ c.toNat && c.toNat ≤ 90) || (97 ≤ c.toNat && c.toNat ≤ 122) ||
    (48 ≤ c.toNat && c.toNat ≤ 57) || c = '_' || c = '-'

/-- Python regex `\w` on ASCII: letters, digits, underscore. -/
def isWordChar (c : Char) : Bool :=
  (65 ≤ c.toNat && c.toNat ≤ 90) || (97 ≤ c.toNat && c.toNat ≤ 122) ||
    (48 ≤ c.toNat && c.toNat ≤ 57) || c = '_'

/-- Is the character at index `j` a word character (out of range: no)? -/
def wordAt (msg : Str) (j : Nat) : Bool := isWordChar (msg.getD j '\x00')

/-- Regex `\b` at position `i`: word-ness changes between `i - 1` and `i`. -/
def boundaryAt (msg : Str) (i : Nat) : Bool :=
  (if i = 0 then false else wordAt msg (i - 1)) != wordAt msg i

/-- The slice `msg[i : i + k]`. -/
def slice (msg : Str) (i k : Nat) : Str := (msg.drop i).take k

/-- Greedy lengths for the `{8,15}` quantifier, longest first. -/
def idLens : List Nat := [15, 14, 13, 12, 11, 10, 9, 8]

/-- Third pattern `\b([A-Z0-9_-]{8,15})\b` at start position `i`. -/
def tryBare (msg : Str) (i : Nat) : Option Str :=
  if boundaryAt msg i then
    idLens.findSome? (fun k =>
      if decide ((slice msg i k).length = k) && (slice msg i k).all isIdChar &&
          boundaryAt msg (i + k)
      then some (slice msg i k) else none)
  else none

/-- Second pattern: a backtick, 8–15 class characters, a backtick.
(`Char.ofNat 96` is the backtick character.) -/
def tryTick (msg : Str) (i : Nat) : Option Str :=
  if msg.getD i '\x00' = Char.ofNat 96 then
    idLens.findSome? (fun k =>
      if decide ((slice msg (i + 1) k).length = k) &&
          (slice msg (i + 1) k).all isIdChar &&
          msg.getD (i + 1 + k) '\x00' = Char.ofNat 96
      then some (slice msg (i + 1) k) else none)
  else none

/-- Length of the maximal whitespace run at position `i` (regex `\s*`). -/
def wsRun (msg : Str) (i : Nat) : Nat := ((msg.drop i).takeWhile isSpaceB).length

/-- First pattern `(?:id|product)\s*:?\s*([A-Z0-9_-]{8,15})` at start
position `i` (case-insensitive literals, greedy separators). -/
def tryLabeled (msg : Str) (i : Nat) : Option Str :=
  let ml := lowerStr msg
  let lit : Option Nat :=
    if (cs "id").isPrefixOf (ml.drop i) then some 2
    else if (cs "product").isPrefixOf (ml.drop i) then some 7
    else none
  match lit with
  | none => none
  | some n =>
    let j := i + n + wsRun msg (i + n)
    let j2 := if msg.getD j '\x00' = ':' then j + 1 else j
    let j3 := j2 + wsRun msg j2
    idLens.findSome? (fun k =>
      if decide ((slice msg j3 k).length = k) && (slice msg j3 k).all isIdChar
      then some (slice msg j3 k) else none)

/-- `re.search`: leftmost matching start position wins. -/
def searchAt {β : Type} (try1 : Str → Nat → Option β) (msg : Str) : Option β :=
  (List.range (msg.length + 1)).findSome? (fun i => try1 msg i)

/-- The denylist of common product-category words. -/
def product_id_denylist : List Str :=
  [cs "mug", cs "shirt", cs "shoes", cs "watch", cs "bag", cs "pants",
   cs "dress", cs "tank", cs "tops"]

/-- The candidate validation of `_extract_product_id`: at least 8
characters, not a denylisted word (lowercased), and containing at
least one uppercase letter or digit. -/
def validProductId (c : Str) : Bool :=
  decide (8 ≤ c.length) && !(product_id_denylist.contains (lowerStr c)) &&
    c.any (fun ch => ch.isUpper || ch.isDigit)

/-- `ShoppingAgent._extract_product_id`: try the three patterns in
order; a pattern's match is returned only when it validates, otherwise
fall through to the next pattern, and finally to `none`. -/
def extract_product_id (msg : Str) : Option Str :=
  [searchAt tryLabeled msg, searchAt tryTick msg, searchAt tryBare msg].findSome?
    (fun r => r.bind (fun c => if validProductId c then some c else none))

end Concierge

/-! ### Claim C8: price formatting in the Response Composer -/

/-- The price f-string used throughout the Response Composer of
`concierge_coordinator.py` (e.g. lines 760, 900, 918, 937, 1009, 1303):
`f"${units}.{nanos:02d}"` — the raw `nanos` value zero-padded to at
least two digits, with NO division by 10^7. -/
def formatPriceCode (units nanos : Nat) : String :=
  "$" ++ toString units ++ "." ++
    (if nanos < 10 then "0" ++ toString nanos else toString nanos)

/-- Price formatting as the spec words it (section 4.6): `units` dot the
two-digit value `nanos / 10_000_000` (truncating).  This formula is
what the repository's own UI implements (streamlit-ui/app.py, line 116:
`f"${units}.{nanos//10000000:02d}"`). -/
def formatPriceSpec (units nanos : Nat) : String :=
  "$" ++ toString units ++ "." ++
    (if nanos / 10000000 < 10 then "0" ++ toString (nanos / 10000000)
     else toString (nanos / 10000000))

/-! ### Claim C9: invalid cart additions fail fast -/

/-- A collaborator call (the HTTP POST / gRPC `AddItem` request). -/
structure CartCall where
  user_id : Str
  product_id : Str
  quantity : Int
deriving DecidableEq

/-- The status/message part of the result dictionaries. -/
structure CartResult where
  status : Str
  message : Str
deriving DecidableEq

namespace Concierge

/-- `ShoppingAgent.add_to_cart` (concierge_coordinator.py, lines
594–612), with the collaborator modelled as an explicit function
`post` and the issued network calls recorded in a trace: the three
validations run before the `try` block that performs the POST, so an
invalid request returns an error result with an empty trace — no
network round-trip happens, and the cart (which only changes through
issued calls) is untouched. -/
def add_to_cart (post : CartCall → CartResult) (user_id product_id : Str)
    (quantity : Int) : CartResult × List CartCall :=
  if stripWs user_id = [] then
    ({ status := cs "error", message := cs "User ID is required" }, [])
  else if stripWs product_id = [] then
    ({ status := cs "error", message := cs "Product ID is required" }, [])
  else if quantity ≤ 0 then
    ({ status := cs "error", message := cs "Quantity must be greater than 0" }, [])
  else
    let call : CartCall :=
      { user_id := user_id, product_id := product_id, quantity := quantity }
    (post call, [call])

end Concierge

namespace MCPServer

/-- `add_item_to_cart` (server.py, lines 387–412): the same three
validations run before the gRPC channel to the cart service is opened. -/
def add_item_to_cart (post : CartCall → CartResult) (user_id product_id : Str)
    (quantity : Int) : CartResult × List CartCall :=
  if stripWs user_id = [] then
    ({ status := cs "error", message := cs "User ID is required" }, [])
  else if stripWs product_id = [] then
    ({ status := cs "error", message := cs "Product ID is required" }, [])
  else if quantity ≤ 0 then
    ({ status := cs "error", message := cs "Quantity must be greater than 0" }, [])
  else
    let call : CartCall :=
      { user_id := user_id, product_id := product_id, quantity := quantity }
    (post call, [call])

end MCPServer

/-! ### Claim C10: budget extraction and fractional amounts -/

namespace Concierge

/-- Length of the maximal digit run at position `i` (regex `\d+`). -/
def digitRun (msg : Str) (i : Nat) : Nat :=
  ((msg.drop i).takeWhile (fun c => c.isDigit)).length

/-- Numeric value of a digit string. -/
def natOfDigits (ds : Str) : Nat :=
  ds.foldl (fun acc c => acc * 10 + (c.toNat - 48)) 0

/-- One budget pattern `kw\s*(:?\s*)?\$?(\d+(?:\.\d{2})?)` at start
position `i` (`colonOpt` adds the `:?\s*` of the fourth pattern).  The
literal is matched case-insensitively; `\d+` is greedy; the optional
group matches exactly a dot followed by two digits, else the capture
is just the integer part — greedy matching is complete here because
the optional tail can always be skipped. -/
def tryBudget (kw : Str) (colonOpt : Bool) (msg : Str) (i : Nat) : Option ℚ :=
  if kw.isPrefixOf ((lowerStr msg).drop i) then
    let j := i + kw.length + wsRun msg (i + kw.length)
    let j1 := if colonOpt && (msg.getD j '\x00' = ':') then j + 1 else j
    let j1b := if colonOpt then j1 + wsRun msg j1 else j1
    let j2 := if msg.getD j1b '\x00' = '$' then j1b + 1 else j1b
    let r := digitRun msg j2
    if 0 < r then
      let intPart := natOfDigits (slice msg j2 r)
      let k := j2 + r
      if msg.getD k '\x00' = '.' && (msg.getD (k + 1) '\x00').isDigit &&
          (msg.getD (k + 2) '\x00').isDigit then
        some ((intPart : ℚ) + (natOfDigits (slice msg (k + 1) 2) : ℚ) / 100)
      else some (intPart : ℚ)
    else none
  else none

/-- `ShoppingAgent._extract_budget` (concierge_coordinator.py, lines
1164–1178): try the four patterns in order, returning the first
pattern's first (leftmost) match as a number; `None` when nothing
matches. -/
def extract_budget (msg : Str) : Option ℚ :=
  [searchAt (tryBudget (cs "under") false) msg,
   searchAt (tryBudget (cs "below") false) msg,
   searchAt (tryBudget (cs "less than") false) msg,
   searchAt (tryBudget (cs "budget") true) msg].findSome? id

end Concierge

unseal Rat.add Rat.mul Rat.inv in
example : ratio (cs "abcd") (cs "bcde") = 3 / 4 := by decide
unseal Rat.add Rat.mul Rat.inv in
example : ratio (cs "running shoes") (cs "running shoes") = 1 := by decide

example : isSubstr (cs "shoe") (cs "running shoes") = true := by decide
example : isSubstr (cs "xyz") (cs "running shoes") = false := by decide
example : splitWs (cs "  a  bc ") = [cs "a", cs "bc"] := by decide
example : stripWs (cs "  ab ") = cs "ab" := by decide
example : rstripS (cs "boss") = cs "bo" := by decide
example : lowerStr (cs "Running Shoes") = cs "running shoes" := by decide

/-! ## Part 2: lemmas and claim theorems -/

lemma lcpLen_le_left : ∀ a b : Str, lcpLen a b ≤ a.length
  | [], _ => by simp [lcpLen]
  | _ :: _, [] => by simp [lcpLen]
  | a :: as, b :: bs => by
    by_cases h : a = b <;> simp [lcpLen, h]
    exact lcpLen_le_left as bs

lemma lcpLen_le_right : ∀ a b : Str, lcpLen a b ≤ b.length
  | [], _ => by simp [lcpLen]
  | _ :: _, [] => by simp [lcpLen]
  | a :: as, b :: bs => by
    by_cases h : a = b <;> simp [lcpLen, h]
    exact lcpLen_le_right as bs

/-- Invariance of a predicate under `List.foldl`. -/
lemma foldl_invariant {α β : Type} (P : β → Prop) (g : β → α → β)
    (l : List α) (init : β) (h0 : P init)
    (hs : ∀ acc x, x ∈ l → P acc → P (g acc x)) : P (l.foldl g init) := by
  induction l generalizing init with
  | nil => exact h0
  | cons x xs ih =>
    exact ih (g init x) (hs init x (by simp) h0)
      (fun acc y hy => hs acc y (by simp [hy]))

/-- The block found by `flm` lies inside both strings. -/
lemma flm_bound (a b : Str) :
    (flm a b).2.2 = 0 ∨
      ((flm a b).1 + (flm a b).2.2 ≤ a.length ∧
        (flm a b).2.1 + (flm a b).2.2 ≤ b.length) := by
  unfold flm
  apply foldl_invariant
    (fun best : Nat × Nat × Nat =>
      best.2.2 = 0 ∨ (best.1 + best.2.2 ≤ a.length ∧ best.2.1 + best.2.2 ≤ b.length))
  · exact Or.inl rfl
  · intro acc i hi hacc
    apply foldl_invariant
      (fun best : Nat × Nat × Nat =>
        best.2.2 = 0 ∨ (best.1 + best.2.2 ≤ a.length ∧ best.2.1 + best.2.2 ≤ b.length))
    · exact hacc
    · intro acc' j hj hacc'
      simp only [List.mem_range] at hi hj
      by_cases hk : acc'.2.2 < lcpLen (a.drop i) (b.drop j)
      · simp only [hk, if_pos]
        right
        constructor
        · have := lcpLen_le_left (a.drop i) (b.drop j)
          simp only [List.length_drop] at this
          omega
        · have := lcpLen_le_right (a.drop i) (b.drop j)
          simp only [List.length_drop] at this
          omega
      · simpa [hk] using hacc'

/-- The matched total never exceeds the length of either string. -/
lemma matchTotalF_le_min :
    ∀ (fuel : Nat) (a b : Str),
      matchTotalF fuel a b ≤ a.length ∧ matchTotalF fuel a b ≤ b.length := by
  intro fuel
  induction fuel with
  | zero => intro a b; simp [matchTotalF]
  | succ n ih =>
    intro a b
    simp only [matchTotalF]
    by_cases hk : (flm a b).2.2 = 0
    · simp [hk]
    · simp only [hk, if_neg, ite_false]
      rcases flm_bound a b with h0 | ⟨hia, hjb⟩
      · exact absurd h0 hk
      · obtain ⟨l1, l2⟩ := ih (a.take (flm a b).1) (b.take (flm a b).2.1)
        obtain ⟨r1, r2⟩ :=
          ih (a.drop ((flm a b).1 + (flm a b).2.2)) (b.drop ((flm a b).2.1 + (flm a b).2.2))
        simp only [List.length_take, List.length_drop] at l1 l2 r1 r2
        omega

lemma matchTotal_le_left (a b : Str) : matchTotal a b ≤ a.length :=
  (matchTotalF_le_min _ a b).1

lemma matchTotal_le_right (a b : Str) : matchTotal a b ≤ b.length :=
  (matchTotalF_le_min _ a b).2

lemma ratio_nonneg (a b : Str) : 0 ≤ ratio a b := by
  unfold ratio
  by_cases h : a.length + b.length = 0
  · simp [h]
  · simp only [h, if_neg, ite_false]
    apply div_nonneg
    · positivity
    · have : 0 < a.length + b.length := Nat.pos_of_ne_zero h
      have : (0 : ℚ) < (a.length : ℚ) + (b.length : ℚ) := by
        exact_mod_cast this
      linarith

lemma ratio_le_one (a b : Str) : ratio a b ≤ 1 := by
  unfold ratio
  by_cases h : a.length + b.length = 0
  · simp [h]
  · simp only [h, if_neg, ite_false]
    have hpos : (0 : ℚ) < (a.length : ℚ) + (b.length : ℚ) := by
      have : 0 < a.length + b.length := Nat.pos_of_ne_zero h
      exact_mod_cast this
    rw [div_le_one hpos]
    have h1 := matchTotal_le_left a b
    have h2 := matchTotal_le_right a b
    have : 2 * matchTotal a b ≤ a.length + b.length := by omega
    calc 2 * (matchTotal a b : ℚ) = ((2 * matchTotal a b : Nat) : ℚ) := by push_cast; ring
      _ ≤ ((a.length + b.length : Nat) : ℚ) := by exact_mod_cast this
      _ = (a.length : ℚ) + (b.length : ℚ) := by push_cast; ring

/-! ### Properties of the stable descending sort -/

lemma mem_insertDescBy {α : Type} (f : α → ℚ) (x : α) (l : List α) (a : α) :
    a ∈ insertDescBy f x l ↔ a = x ∨ a ∈ l := by
  induction l with
  | nil => simp [insertDescBy]
  | cons y ys ih =>
    by_cases h : f y ≤ f x
    · simp [insertDescBy, h]
    · simp [insertDescBy, h, ih]
      tauto

lemma perm_insertDescBy {α : Type} (f : α → ℚ) (x : α) (l : List α) :
    (insertDescBy f x l).Perm (x :: l) := by
  induction l with
  | nil => simp [insertDescBy]
  | cons y ys ih =>
    by_cases h : f y ≤ f x
    · simp [insertDescBy, h]
    · simp only [insertDescBy, h, if_neg, ite_false]
      exact (ih.cons y).trans (List.Perm.swap x y ys)

lemma perm_sortByScoreDesc {α : Type} (f : α → ℚ) (l : List α) :
    (sortByScoreDesc f l).Perm l := by
  induction l with
  | nil => simp [sortByScoreDesc]
  | cons x xs ih =>
    exact (perm_insertDescBy f x (sortByScoreDesc f xs)).trans (ih.cons x)

lemma pairwise_insertDescBy {α : Type} (f : α → ℚ) (x : α) (l : List α)
    (h : l.Pairwise (fun a b => f b ≤ f a)) :
    (insertDescBy f x l).Pairwise (fun a b => f b ≤ f a) := by
  induction l with
  | nil => simp [insertDescBy]
  | cons y ys ih =>
    rcases List.pairwise_cons.mp h with ⟨hy, hys⟩
    by_cases hxy : f y ≤ f x
    · simp only [insertDescBy, hxy, if_pos, ite_true]
      refine List.pairwise_cons.mpr ⟨?_, h⟩
      intro z hz
      rcases List.mem_cons.mp hz with rfl | hz
      · exact hxy
      · exact le_trans (hy z hz) hxy
    · simp only [insertDescBy, hxy, if_neg, ite_false]
      refine List.pairwise_cons.mpr ⟨?_, ih hys⟩
      intro z hz
      rcases (mem_insertDescBy f x ys z).mp hz with rfl | hz
      · exact le_of_lt (lt_of_not_le hxy)
      · exact hy z hz

lemma pairwise_sortByScoreDesc {α : Type} (f : α → ℚ) (l : List α) :
    (sortByScoreDesc f l).Pairwise (fun a b => f b ≤ f a) := by
  induction l with
  | nil => simp [sortByScoreDesc]
  | cons x xs ih => exact pairwise_insertDescBy f x (sortByScoreDesc f xs) ih

lemma filter_insertDescBy {α : Type} (f : α → ℚ) (x : α) (l : List α) (v : ℚ) :
    (insertDescBy f x l).filter (fun p => decide (f p = v)) =
      if f x = v then x :: l.filter (fun p => decide (f p = v))
      else l.filter (fun p => decide (f p = v)) := by
  induction l with
  | nil =>
    by_cases h : f x = v <;> simp [insertDescBy, List.filter, h]
  | cons y ys ih =>
    by_cases hxy : f y ≤ f x
    · have hins : insertDescBy f x (y :: ys) = x :: y :: ys := by
        rw [insertDescBy, if_pos hxy]
      rw [hins, List.filter_cons]
      by_cases hx : f x = v <;> simp [hx]
    · have hlt : f x < f y := lt_of_not_le hxy
      have hins : insertDescBy f x (y :: ys) = y :: insertDescBy f x ys := by
        rw [insertDescBy, if_neg hxy]
      rw [hins, List.filter_cons, ih]
      by_cases hx : f x = v
      · have hy : ¬ f y = v := by
          intro hyv
          rw [hx] at hlt
          rw [hyv] at hlt
          exact lt_irrefl v hlt
        simp [hx, hy, List.filter_cons]
      · simp [hx, List.filter_cons]

lemma filter_sortByScoreDesc {α : Type} (f : α → ℚ) (l : List α) (v : ℚ) :
    (sortByScoreDesc f l).filter (fun p => decide (f p = v)) =
      l.filter (fun p => decide (f p = v)) := by
  induction l with
  | nil => simp [sortByScoreDesc]
  | cons x xs ih =>
    simp only [sortByScoreDesc, filter_insertDescBy, ih, List.filter_cons]
    by_cases hx : f x = v <;> simp [hx]

/-! ### Generic facts about `filter`-then-stable-sort matching -/

/-- With a threshold above every achievable score, nothing is kept. -/
lemma match_empty_of_gt {α : Type} (f : α → ℚ) (C : List α) (t : ℚ)
    (hf : ∀ p, f p ≤ 1) (ht : 1 < t) :
    sortByScoreDesc f (C.filter (fun p => decide (t ≤ f p))) = [] := by
  have : C.filter (fun p => decide (t ≤ f p)) = [] := by
    rw [List.filter_eq_nil_iff]
    intro a _
    simp only [decide_eq_true_eq]
    intro hta
    exact absurd (le_trans hta (hf a)) (not_le.mpr ht)
  rw [this]
  rfl

/-- With threshold `0` and nonnegative scores, everything is kept. -/
lemma match_filter_zero {α : Type} (f : α → ℚ) (C : List α)
    (hf : ∀ p, 0 ≤ f p) :
    C.filter (fun p => decide ((0 : ℚ) ≤ f p)) = C := by
  rw [List.filter_eq_self]
  intro a _
  simp [hf a]

/-! ### Score bounds -/

lemma wordPoints_nonneg (w searchable : Str) : 0 ≤ wordPoints w searchable := by
  unfold wordPoints
  split
  · norm_num
  · split
    · norm_num
    · split <;> norm_num

lemma wordPoints_le_one (w searchable : Str) : wordPoints w searchable ≤ 1 := by
  unfold wordPoints
  split
  · norm_num
  · split
    · norm_num
    · split <;> norm_num

lemma directSimilarity_nonneg (variants : List Str) (p : Product) :
    0 ≤ directSimilarity variants p := by
  unfold directSimilarity
  have h :
      ∀ (l : List Str) (init : ℚ), 0 ≤ init →
        0 ≤ l.foldl
          (fun m v =>
            max (max (max m (ratio v (lowerStr p.name))) (ratio v (lowerStr p.description)))
              (ratio v (lowerStr (joinWs p.categories)))) init := by
    intro l
    induction l with
    | nil => intro init h0; simpa using h0
    | cons x xs ih =>
      intro init h0
      exact ih _ (le_trans h0 (le_max_of_le_left (le_max_of_le_left (le_max_left _ _))))
  exact h variants 0 le_rfl

lemma directSimilarity_le_one (variants : List Str) (p : Product) :
    directSimilarity variants p ≤ 1 := by
  unfold directSimilarity
  apply foldl_invariant (fun m : ℚ => m ≤ 1)
  · norm_num
  · intro acc v _ hacc
    simp only [max_le_iff]
    exact ⟨⟨⟨hacc, ratio_le_one _ _⟩, ratio_le_one _ _⟩, ratio_le_one _ _⟩

/-- A list of per-word contributions, each in `[0, 1]`, sums to at most
its length. -/
lemma points_sum_le_length (ws : List Str) (g : Str → ℚ) (hg : ∀ w, g w ≤ 1) :
    (ws.map g).sum ≤ (ws.length : ℚ) := by
  have := List.sum_le_card_nsmul (ws.map g) 1 (by
    intro x hx
    rcases List.mem_map.mp hx with ⟨w, _, rfl⟩
    exact hg w)
  simpa using this

lemma points_sum_nonneg (ws : List Str) (g : Str → ℚ) (hg : ∀ w, 0 ≤ g w) :
    0 ≤ (ws.map g).sum := by
  induction ws with
  | nil => simp
  | cons x xs ih =>
    simp only [List.map_cons, List.sum_cons]
    exact add_nonneg (hg x) ih

/-- Any list whose `isEmpty` is false has positive length. -/
lemma length_pos_of_not_isEmpty {α : Type} (l : List α) (h : ¬ l.isEmpty = true) :
    0 < l.length := by
  cases l with
  | nil => simp at h
  | cons a as => simp

/-- Bounded quotient: a sum of per-word points in `[0,1]` divided by the
word count is at most `1`. -/
lemma points_avg_le_one (ws : List Str) (g : Str → ℚ) (hg : ∀ w, g w ≤ 1)
    (hlen : 0 < ws.length) : (ws.map g).sum / (ws.length : ℚ) ≤ 1 := by
  have hlenq : (0 : ℚ) < (ws.length : ℚ) := by exact_mod_cast hlen
  rw [div_le_one hlenq]
  exact points_sum_le_length ws g hg

lemma points_avg_nonneg (ws : List Str) (g : Str → ℚ) (hg : ∀ w, 0 ≤ g w) :
    0 ≤ (ws.map g).sum / (ws.length : ℚ) := by
  apply div_nonneg (points_sum_nonneg ws g hg)
  positivity

namespace Concierge

lemma wordSignal_nonneg (q : Str) (p : Product) : 0 ≤ wordSignal q p := by
  simp only [wordSignal]
  have := points_avg_nonneg (queryWords (queryVariants (stripWs (lowerStr q))))
    (fun w => wordPoints w (searchableText p))
    (fun w => wordPoints_nonneg w (searchableText p))
  nlinarith

lemma wordSignal_le_one (q : Str) (p : Product) : wordSignal q p ≤ 1 := by
  simp only [wordSignal]
  set ws := queryWords (queryVariants (stripWs (lowerStr q)))
  by_cases hlen : 0 < ws.length
  · have hle := points_avg_le_one ws (fun w => wordPoints w (searchableText p))
      (fun w => wordPoints_le_one w (searchableText p)) hlen
    have hnn := points_avg_nonneg ws (fun w => wordPoints w (searchableText p))
      (fun w => wordPoints_nonneg w (searchableText p))
    nlinarith
  · have hz : ws.length = 0 := by omega
    rw [hz]
    norm_num

lemma productScore_nonneg (q : Str) (p : Product) : 0 ≤ productScore q p := by
  simp only [productScore]
  have h1 := directSimilarity_nonneg (queryVariants (stripWs (lowerStr q))) p
  split
  · apply le_max_of_le_left
    split
    · exact h1
    · exact le_max_of_le_left h1
  · split
    · exact h1
    · exact le_max_of_le_left h1

lemma productScore_le_one (q : Str) (p : Product) : productScore q p ≤ 1 := by
  simp only [productScore]
  have h1 := directSimilarity_le_one (queryVariants (stripWs (lowerStr q))) p
  have hword := wordSignal_le_one q p
  split
  · apply max_le _ (by norm_num)
    split
    · exact h1
    · exact max_le h1 hword
  · split
    · exact h1
    · exact max_le h1 hword

end Concierge

namespace MCPServer

lemma enhancedWordSignal_nonneg (q : Str) (p : Product) : 0 ≤ wordSignal q p := by
  simp only [wordSignal]
  set ws := queryWords (queryVariants (stripWs (lowerStr q)))
  have hg0 : ∀ w : Str,
      0 ≤ (if decide (3 ≤ w.length) then wordPoints w (searchableText p) else 0) := by
    intro w
    split
    · exact wordPoints_nonneg _ _
    · norm_num
  have hnn := points_avg_nonneg ws _ hg0
  split
  · nlinarith
  · norm_num

lemma enhancedWordSignal_le_one (q : Str) (p : Product) : wordSignal q p ≤ 1 := by
  simp only [wordSignal]
  set ws := queryWords (queryVariants (stripWs (lowerStr q)))
  have hg1 : ∀ w : Str,
      (if decide (3 ≤ w.length) then wordPoints w (searchableText p) else 0) ≤ 1 := by
    intro w
    split
    · exact wordPoints_le_one _ _
    · norm_num
  have hg0 : ∀ w : Str,
      0 ≤ (if decide (3 ≤ w.length) then wordPoints w (searchableText p) else 0) := by
    intro w
    split
    · exact wordPoints_nonneg _ _
    · norm_num
  split
  · rename_i hlen
    have hle := points_avg_le_one ws _ hg1 hlen
    have hnn := points_avg_nonneg ws _ hg0
    nlinarith
  · norm_num

lemma enhancedScore_nonneg (q : Str) (p : Product) : 0 ≤ enhancedScore q p := by
  simp only [enhancedScore]
  have h1 := directSimilarity_nonneg (queryVariants (stripWs (lowerStr q))) p
  split
  · exact le_max_of_le_left (le_max_of_le_left (le_max_of_le_left h1))
  · exact le_max_of_le_left (le_max_of_le_left h1)

lemma enhancedScore_le_one (q : Str) (p : Product) : enhancedScore q p ≤ 1 := by
  simp only [enhancedScore]
  have h1 := directSimilarity_le_one (queryVariants (stripWs (lowerStr q))) p
  have hws := enhancedWordSignal_le_one q p
  split
  · apply max_le _ (by norm_num)
    apply max_le (max_le h1 hws)
    split <;> norm_num
  · apply max_le (max_le h1 hws)
    split <;> norm_num

lemma basicScore_nonneg (q : Str) (p : Product) : 0 ≤ basicScore q p := by
  simp only [basicScore]
  exact le_max_of_le_left (le_max_of_le_left (ratio_nonneg _ _))

lemma basicScore_le_one (q : Str) (p : Product) : basicScore q p ≤ 1 := by
  simp only [basicScore]
  apply max_le (max_le (ratio_le_one _ _) (ratio_le_one _ _))
  split
  · norm_num
  · rename_i hne
    apply points_avg_le_one
    · intro w
      split
      · norm_num
      · split <;> norm_num
    · exact length_pos_of_not_isEmpty _ hne

end MCPServer

/-! ### Claim C1 -/

unseal Rat.add Rat.mul Rat.inv in
/-- Claim C1: for every query, catalog, and threshold not above 0.8, a
product whose lowercased name contains some lexical variant of the
query (each strategy generating its own variants) has final score at
least 0.8 and is kept; and concretely
`match("running shoe", [Running Shoes, Blue Jacket], 0.4)` ranks the
"Running Shoes" product first with score at least 0.8, under both the
concierge matcher (`fuzzy_match_products`) and the enhanced matcher
(`enhanced_fuzzy_match_products`). -/
theorem C1_name_substring_floor (q : Str) (C : List Product) (t : ℚ) (p : Product)
    (ht : t ≤ 4 / 5) (hp : p ∈ C) :
    (((Concierge.queryVariants (stripWs (lowerStr q))).any
        (fun v => isSubstr v (lowerStr p.name)) = true →
      4 / 5 ≤ Concierge.productScore q p ∧ p ∈ Concierge.fuzzy_match_products q C t) ∧
     ((MCPServer.queryVariants (stripWs (lowerStr q))).any
        (fun v => isSubstr v (lowerStr p.name)) = true →
      4 / 5 ≤ MCPServer.enhancedScore q p ∧
        p ∈ MCPServer.enhanced_fuzzy_match_products q C t)) ∧
    ((Concierge.fuzzy_match_products (cs "running shoe") [runningShoes, blueJacket]
        (2 / 5)).head? = some runningShoes ∧
      4 / 5 ≤ Concierge.productScore (cs "running shoe") runningShoes ∧
      (MCPServer.enhanced_fuzzy_match_products (cs "running shoe")
        [runningShoes, blueJacket] (2 / 5)).head? = some runningShoes ∧
      4 / 5 ≤ MCPServer.enhancedScore (cs "running shoe") runningShoes) := by
  constructor
  · constructor
    · intro hc
      have hscore : 4 / 5 ≤ Concierge.productScore q p := by
        simp only [Concierge.productScore]
        rw [if_pos hc]
        exact le_max_right _ _
      refine ⟨hscore, ?_⟩
      unfold Concierge.fuzzy_match_products
      rw [(perm_sortByScoreDesc _ _).mem_iff]
      exact List.mem_filter.mpr ⟨hp, decide_eq_true (le_trans ht hscore)⟩
    · intro hc
      have hscore : 4 / 5 ≤ MCPServer.enhancedScore q p := by
        simp only [MCPServer.enhancedScore]
        rw [if_pos hc]
        exact le_max_right _ _
      refine ⟨hscore, ?_⟩
      unfold MCPServer.enhanced_fuzzy_match_products
      rw [(perm_sortByScoreDesc _ _).mem_iff]
      exact List.mem_filter.mpr ⟨hp, decide_eq_true (le_trans ht hscore)⟩
  · exact ⟨by decide, by decide, by decide, by decide⟩

/-- Witness for C1: instantiated at the concrete query
"running shoe" against the sample catalog with threshold `0.4`. -/
theorem C1_name_substring_floor_witness :
    4 / 5 ≤ Concierge.productScore (cs "running shoe") runningShoes ∧
      runningShoes ∈ Concierge.fuzzy_match_products (cs "running shoe")
        [runningShoes, blueJacket] (2 / 5) :=
  ((C1_name_substring_floor (cs "running shoe") [runningShoes, blueJacket] (2 / 5)
      runningShoes (by norm_num) (by simp)).1.1 (by decide))

/-! ### Claim C2 -/

/-- Claim C2: for every query and catalog, all three fuzzy matchers
return the empty list when the threshold exceeds 1, and at threshold 0
they return the whole catalog stably sorted by descending score
(permutation of the catalog, scores pairwise descending, and products
of any fixed score kept in arrival order). -/
theorem C2_threshold_extremes (q : Str) (C : List Product) (t : ℚ) :
    (1 < t →
      Concierge.fuzzy_match_products q C t = [] ∧
      MCPServer.enhanced_fuzzy_match_products q C t = [] ∧
      MCPServer.fuzzy_match_products q C t = []) ∧
    ((Concierge.fuzzy_match_products q C 0).Perm C ∧
      (Concierge.fuzzy_match_products q C 0).Pairwise
        (fun a b => Concierge.productScore q b ≤ Concierge.productScore q a) ∧
      (∀ v : ℚ, (Concierge.fuzzy_match_products q C 0).filter
          (fun p => decide (Concierge.productScore q p = v)) =
        C.filter (fun p => decide (Concierge.productScore q p = v)))) ∧
    ((MCPServer.enhanced_fuzzy_match_products q C 0).Perm C ∧
      (MCPServer.enhanced_fuzzy_match_products q C 0).Pairwise
        (fun a b => MCPServer.enhancedScore q b ≤ MCPServer.enhancedScore q a) ∧
      (∀ v : ℚ, (MCPServer.enhanced_fuzzy_match_products q C 0).filter
          (fun p => decide (MCPServer.enhancedScore q p = v)) =
        C.filter (fun p => decide (MCPServer.enhancedScore q p = v)))) ∧
    ((MCPServer.fuzzy_match_products q C 0).Perm C ∧
      (MCPServer.fuzzy_match_products q C 0).Pairwise
        (fun a b => MCPServer.basicScore q b ≤ MCPServer.basicScore q a) ∧
      (∀ v : ℚ, (MCPServer.fuzzy_match_products q C 0).filter
          (fun p => decide (MCPServer.basicScore q p = v)) =
        C.filter (fun p => decide (MCPServer.basicScore q p = v)))) := by
  refine ⟨?_, ?_, ?_, ?_⟩
  · intro ht
    refine ⟨?_, ?_, ?_⟩
    · exact match_empty_of_gt _ C t (fun p => Concierge.productScore_le_one q p) ht
    · exact match_empty_of_gt _ C t (fun p => MCPServer.enhancedScore_le_one q p) ht
    · exact match_empty_of_gt _ C t (fun p => MCPServer.basicScore_le_one q p) ht
  · unfold Concierge.fuzzy_match_products
    rw [match_filter_zero _ C (fun p => Concierge.productScore_nonneg q p)]
    exact ⟨perm_sortByScoreDesc _ C, pairwise_sortByScoreDesc _ C,
      fun v => filter_sortByScoreDesc _ C v⟩
  · unfold MCPServer.enhanced_fuzzy_match_products
    rw [match_filter_zero _ C (fun p => MCPServer.enhancedScore_nonneg q p)]
    exact ⟨perm_sortByScoreDesc _ C, pairwise_sortByScoreDesc _ C,
      fun v => filter_sortByScoreDesc _ C v⟩
  · unfold MCPServer.fuzzy_match_products
    rw [match_filter_zero _ C (fun p => MCPServer.basicScore_nonneg q p)]
    exact ⟨perm_sortByScoreDesc _ C, pairwise_sortByScoreDesc _ C,
      fun v => filter_sortByScoreDesc _ C v⟩

/-- Witness for C2: at threshold 2 every matcher rejects the whole
sample catalog. -/
theorem C2_threshold_extremes_witness :
    Concierge.fuzzy_match_products (cs "shoe") [runningShoes, blueJacket] 2 = [] ∧
      MCPServer.enhanced_fuzzy_match_products (cs "shoe") [runningShoes, blueJacket] 2
        = [] ∧
      MCPServer.fuzzy_match_products (cs "shoe") [runningShoes, blueJacket] 2 = [] :=
  (C2_threshold_extremes (cs "shoe") [runningShoes, blueJacket] 2).1 (by norm_num)

/-! ### Claims C3 and C4 -/

/-- Elements of `eraseDups` come from the original list (helper for the
loop with accumulator). -/
lemma eraseDups_loop_subset {α : Type} [BEq α] :
    ∀ (as bs : List α) (x : α), x ∈ List.eraseDups.loop as bs → x ∈ as ∨ x ∈ bs
  | [], bs, x => by
    intro h
    simp only [List.eraseDups.loop] at h
    exact Or.inr (List.mem_reverse.mp h)
  | a :: as, bs, x => by
    intro h
    rw [List.eraseDups.loop] at h
    cases helem : bs.elem a with
    | true =>
      rw [helem] at h
      rcases eraseDups_loop_subset as bs x h with h1 | h1
      · exact Or.inl (List.mem_cons_of_mem a h1)
      · exact Or.inr h1
    | false =>
      rw [helem] at h
      rcases eraseDups_loop_subset as (a :: bs) x h with h1 | h1
      · exact Or.inl (List.mem_cons_of_mem a h1)
      · rcases List.mem_cons.mp h1 with rfl | h2
        · exact Or.inl (List.mem_cons_self _ _)
        · exact Or.inr h2

lemma mem_of_mem_eraseDups {α : Type} [BEq α] (l : List α) (x : α)
    (h : x ∈ l.eraseDups) : x ∈ l := by
  unfold List.eraseDups at h
  rcases eraseDups_loop_subset l [] x h with h1 | h1
  · exact h1
  · simp at h1

unseal Rat.add Rat.mul Rat.inv in
/-- Counterexample to claim C3: for the query "go cup" (whose variant
word set contains the short word "go") and a product named "cup", the
enhanced strategy divides the accumulated total 2 by 4 — the size of
the unfiltered deduplicated word set — giving signal (2/4)*0.9 = 9/20,
whereas the claimed formula divides by the 3 length-filtered words,
giving (2/3)*0.9 = 3/5. -/
theorem C3_word_overlap_counterexample :
    MCPServer.wordSignal (cs "go cup") cupProduct = 9 / 20 ∧
      specWordOverlap (MCPServer.queryVariants (stripWs (lowerStr (cs "go cup"))))
        cupProduct = 3 / 5 ∧
      MCPServer.wordSignal (cs "go cup") cupProduct ≠
        specWordOverlap (MCPServer.queryVariants (stripWs (lowerStr (cs "go cup"))))
          cupProduct := by
  refine ⟨by decide, by decide, by decide⟩

/-- Claim C3 as amended: the word-overlap signal of the basic
(concierge) strategy is exactly the spec formula over its variants; the
enhanced (server) strategy agrees with the spec formula whenever every
word of its variant set is longer than 2 characters, but in general its
divisor is the size of the unfiltered deduplicated word set (short
words contribute 0 points yet still count in the divisor). -/
theorem C3_word_overlap_amended (q : Str) (p : Product) :
    Concierge.wordSignal q p =
      specWordOverlap (Concierge.queryVariants (stripWs (lowerStr q))) p ∧
    (((MCPServer.queryVariants (stripWs (lowerStr q))).map splitWs).flatten.all
        (fun w => decide (2 < w.length)) = true →
      MCPServer.wordSignal q p =
        specWordOverlap (MCPServer.queryVariants (stripWs (lowerStr q))) p) := by
  constructor
  · rfl
  · intro hall
    have hfil :
        ((MCPServer.queryVariants (stripWs (lowerStr q))).map splitWs).flatten.filter
            (fun w => decide (w.length > 2)) =
          ((MCPServer.queryVariants (stripWs (lowerStr q))).map splitWs).flatten := by
      rw [List.filter_eq_self]
      intro a ha
      exact List.all_eq_true.mp hall a ha
    simp only [MCPServer.wordSignal, specWordOverlap, MCPServer.queryWords, hfil]
    set ws := ((MCPServer.queryVariants (stripWs (lowerStr q))).map splitWs).flatten.eraseDups
      with hws
    have hmap : ws.map (fun w =>
        if decide (3 ≤ w.length) then wordPoints w (searchableText p) else 0) =
        ws.map (fun w => wordPoints w (searchableText p)) := by
      apply List.map_congr_left
      intro w hw
      have hwmem := mem_of_mem_eraseDups _ w hw
      have hlong := List.all_eq_true.mp hall w hwmem
      simp only [decide_eq_true_eq] at hlong
      rw [if_pos (by simpa using hlong)]
    rw [hmap]
    by_cases hlen : 0 < ws.length
    · rw [if_pos hlen]
    · rw [if_neg hlen]
      have hz : ws.length = 0 := by omega
      have hnil : ws = [] := List.length_eq_zero.mp hz
      rw [hnil]
      norm_num

unseal Rat.add Rat.mul Rat.inv in
/-- Witness for C3 (amended): for the query "cup" every word of the
enhanced variant set is longer than 2 characters, and both strategies
then compute the spec formula. -/
theorem C3_word_overlap_amended_witness :
    MCPServer.wordSignal (cs "cup") cupProduct =
      specWordOverlap (MCPServer.queryVariants (stripWs (lowerStr (cs "cup"))))
        cupProduct :=
  (C3_word_overlap_amended (cs "cup") cupProduct).2 (by decide)

/-- Counterexample to claim C4: the phrase "shoe" ends in "e" and not in
"s", so the claimed variant set is exactly the phrase and the phrase
plus "s"; but the enhanced strategy also generates "shoees", because
server.py appends both suffixes unconditionally. -/
theorem C4_lexical_variants_counterexample :
    endsWith (cs "shoe") (cs "s") = false ∧
      endsWith (cs "shoe") (cs "e") = true ∧
      MCPServer.queryVariants (cs "shoe") = [cs "shoe", cs "shoes", cs "shoees"] ∧
      ¬ (cs "shoees" = cs "shoe" ∨ cs "shoees" = cs "shoe" ++ cs "s") := by
  refine ⟨by decide, by decide, by decide, by decide⟩

/-- Claim C4 as amended: for a phrase not ending in "s", the concierge
strategy generates exactly the original phrase, phrase + "s", and —
only when the phrase does not end in "e" — phrase + "es"; the enhanced
strategy generates exactly the original phrase, phrase + "s" and
phrase + "es", unconditionally. -/
theorem C4_lexical_variants_amended (q : Str) (h : endsWith q (cs "s") = false) :
    (∀ v : Str, v ∈ Concierge.queryVariants q ↔
      (v = q ∨ v = q ++ cs "s" ∨
        (endsWith q (cs "e") = false ∧ v = q ++ cs "es"))) ∧
    (∀ v : Str, v ∈ MCPServer.queryVariants q ↔
      (v = q ∨ v = q ++ cs "s" ∨ v = q ++ cs "es")) := by
  have hc : (endsWith q (cs "s") && decide (q.length > 3)) = false := by
    rw [h, Bool.false_and]
  constructor
  · intro v
    simp only [Concierge.queryVariants, hc, Bool.false_eq_true, if_false]
    by_cases he : endsWith q (cs "e") = true
    · simp [he]
    · have he' : endsWith q (cs "e") = false := by
        cases hx : endsWith q (cs "e")
        · rfl
        · exact absurd hx he
      simp [he']
  · intro v
    simp only [MCPServer.queryVariants, hc, Bool.false_eq_true, if_false]
    simp [List.mem_cons]

/-- Witness for C4 (amended): instantiated at the phrase "shoe", whose
enhanced variants include "shoees". -/
theorem C4_lexical_variants_amended_witness :
    cs "shoees" ∈ MCPServer.queryVariants (cs "shoe") :=
  ((C4_lexical_variants_amended (cs "shoe") (by decide)).2 (cs "shoees")).mpr
    (Or.inr (Or.inr (by decide)))

/-- `find?` returns the head of the filtered list. -/
lemma find?_eq_head_filter {α : Type} (p : α → Bool) (l : List α) :
    l.find? p = (l.filter p).head? := by
  induction l with
  | nil => rfl
  | cons x xs ih =>
    cases h : p x
    · rw [List.find?_cons_of_neg _ (by simp [h]),
        List.filter_cons_of_neg (by simp [h]), ih]
    · rw [List.find?_cons_of_pos _ h, List.filter_cons_of_pos h]
      rfl

/-- Claim C5: the classifier scans the trigger lists in the declared
order — its result is the first intent of `intent_patterns` whose
phrase list has a substring hit in the lowercased text, defaulting to
"search" when nothing matches (and no embedding backend exists); in
particular "show me watches" is Search, "what's in my cart" is
ViewCart, and "xyz nonsense" defaults to Search. -/
theorem C5_classify_intent :
    (∀ t : Str,
      Concierge.classify_intent t =
        (((Concierge.intent_patterns.filter
            (fun ip => ip.2.any (fun pat => isSubstr pat (lowerStr t)))).head?.map
          Prod.fst).getD (cs "search"))) ∧
    Concierge.classify_intent (cs "show me watches") = cs "search" ∧
    Concierge.classify_intent (cs "what\x27s in my cart") = cs "cart_view" ∧
    Concierge.classify_intent (cs "xyz nonsense") = cs "search" := by
  refine ⟨?_, by decide, by decide, by decide⟩
  intro t
  simp only [Concierge.classify_intent]
  rw [find?_eq_head_filter]
  cases (Concierge.intent_patterns.filter
      (fun ip => ip.2.any (fun pat => isSubstr pat (lowerStr t)))).head? with
  | none => rfl
  | some ip => rfl

/-! Support lemmas for idempotence: ASCII lowering is idempotent, and
`splitWs` inverts `joinWs` on lists of nonempty whitespace-free words. -/

lemma toLower_toNat_of_upper (c : Char) (h1 : 65 ≤ c.toNat) (h2 : c.toNat ≤ 90) :
    (Char.toLower c).toNat = c.toNat + 32 := by
  simp only [Char.toLower]
  rw [if_pos (by omega)]
  have hv : (c.toNat + 32).isValidChar := Or.inl (by omega)
  rw [Char.ofNat, dif_pos hv]
  simp [Char.ofNatAux, Char.toNat, UInt32.toNat, BitVec.toNat_ofNatLt]

lemma toLower_of_not_upper (c : Char) (h : ¬(65 ≤ c.toNat ∧ c.toNat ≤ 90)) :
    Char.toLower c = c := by
  simp only [Char.toLower]
  rw [if_neg (by omega)]

lemma toLower_idem (c : Char) :
    Char.toLower (Char.toLower c) = Char.toLower c := by
  by_cases h : 65 ≤ c.toNat ∧ c.toNat ≤ 90
  · have ht := toLower_toNat_of_upper c h.1 h.2
    exact toLower_of_not_upper _ (by omega)
  · rw [toLower_of_not_upper c h, toLower_of_not_upper c h]

/-- Words produced by `splitWsAux` are nonempty and whitespace-free. -/
lemma splitWsAux_ok :
    ∀ (s acc : Str), (∀ c ∈ acc, isSpaceB c = false) →
      ∀ w ∈ splitWsAux s acc, w ≠ [] ∧ ∀ c ∈ w, isSpaceB c = false
  | [], acc => by
    intro hacc w hw
    simp only [splitWsAux] at hw
    by_cases ha : acc = []
    · simp [ha] at hw
    · rw [if_neg ha] at hw
      simp only [List.mem_singleton] at hw
      subst hw
      refine ⟨by simpa using ha, ?_⟩
      intro c hc
      exact hacc c (List.mem_reverse.mp hc)
  | c :: rest, acc => by
    intro hacc w hw
    simp only [splitWsAux] at hw
    by_cases hsp : isSpaceB c = true
    · rw [if_pos hsp] at hw
      by_cases ha : acc = []
      · rw [if_pos ha] at hw
        exact splitWsAux_ok rest [] (by simp) w hw
      · rw [if_neg ha] at hw
        rcases List.mem_cons.mp hw with rfl | hw2
        · refine ⟨by simpa using ha, ?_⟩
          intro d hd
          exact hacc d (List.mem_reverse.mp hd)
        · exact splitWsAux_ok rest [] (by simp) w hw2
    · rw [if_neg hsp] at hw
      refine splitWsAux_ok rest (c :: acc) ?_ w hw
      intro d hd
      rcases List.mem_cons.mp hd with rfl | hd2
      · simpa using hsp
      · exact hacc d hd2

lemma splitWs_ok (s : Str) :
    ∀ w ∈ splitWs s, w ≠ [] ∧ ∀ c ∈ w, isSpaceB c = false :=
  splitWsAux_ok s [] (by simp)

/-- Characters of the words of `splitWsAux` come from the input. -/
lemma splitWsAux_chars :
    ∀ (s acc : Str), ∀ w ∈ splitWsAux s acc, ∀ c ∈ w, c ∈ s ∨ c ∈ acc
  | [], acc => by
    intro w hw c hc
    simp only [splitWsAux] at hw
    by_cases ha : acc = []
    · simp [ha] at hw
    · rw [if_neg ha] at hw
      simp only [List.mem_singleton] at hw
      subst hw
      exact Or.inr (List.mem_reverse.mp hc)
  | d :: rest, acc => by
    intro w hw c hc
    simp only [splitWsAux] at hw
    by_cases hsp : isSpaceB d = true
    · rw [if_pos hsp] at hw
      by_cases ha : acc = []
      · rw [if_pos ha] at hw
        rcases splitWsAux_chars rest [] w hw c hc with h1 | h1
        · exact Or.inl (List.mem_cons_of_mem d h1)
        · simp at h1
      · rw [if_neg ha] at hw
        rcases List.mem_cons.mp hw with rfl | hw2
        · exact Or.inr (List.mem_reverse.mp hc)
        · rcases splitWsAux_chars rest [] w hw2 c hc with h1 | h1
          · exact Or.inl (List.mem_cons_of_mem d h1)
          · simp at h1
    · rw [if_neg hsp] at hw
      rcases splitWsAux_chars rest (d :: acc) w hw c hc with h1 | h1
      · exact Or.inl (List.mem_cons_of_mem d h1)
      · rcases List.mem_cons.mp h1 with rfl | h2
        · exact Or.inl (List.mem_cons_self _ _)
        · exact Or.inr h2

lemma splitWs_chars (s : Str) : ∀ w ∈ splitWs s, ∀ c ∈ w, c ∈ s := by
  intro w hw c hc
  rcases splitWsAux_chars s [] w hw c hc with h1 | h1
  · exact h1
  · simp at h1

/-- Pushing a whitespace-free prefix into the `splitWsAux` accumulator. -/
lemma splitWsAux_append :
    ∀ (w : Str), (∀ c ∈ w, isSpaceB c = false) →
      ∀ (s acc : Str), splitWsAux (w ++ s) acc = splitWsAux s (w.reverse ++ acc)
  | [] => by intro _ s acc; simp
  | c :: w' => by
    intro hw s acc
    have hc : isSpaceB c = false := hw c (List.mem_cons_self _ _)
    simp only [List.cons_append, splitWsAux, hc, Bool.false_eq_true, if_false,
      List.append_eq]
    rw [splitWsAux_append w' (fun d hd => hw d (List.mem_cons_of_mem c hd)) s (c :: acc)]
    simp

/-- `splitWs` inverts `joinWs` on nonempty whitespace-free words. -/
lemma splitWs_joinWs :
    ∀ ws : List Str, (∀ w ∈ ws, w ≠ [] ∧ ∀ c ∈ w, isSpaceB c = false) →
      splitWs (joinWs ws) = ws
  | [] => by intro _; rfl
  | [w] => by
    intro h
    obtain ⟨hne, hns⟩ := h w (by simp)
    show splitWsAux (joinWs [w]) [] = [w]
    have hj : joinWs [w] = w := rfl
    rw [hj]
    have h2 := splitWsAux_append w hns [] []
    rw [List.append_nil, List.append_nil] at h2
    rw [h2]
    simp only [splitWsAux]
    rw [if_neg (by simpa using hne)]
    simp
  | w :: w' :: ws => by
    intro h
    obtain ⟨hne, hns⟩ := h w (by simp)
    show splitWsAux (joinWs (w :: w' :: ws)) [] = w :: w' :: ws
    have hj : joinWs (w :: w' :: ws) = w ++ ' ' :: joinWs (w' :: ws) := rfl
    rw [hj, splitWsAux_append w hns]
    simp only [List.append_nil, splitWsAux]
    rw [if_pos (by decide), if_neg (by simpa using hne)]
    rw [List.reverse_reverse]
    congr 1
    exact splitWs_joinWs (w' :: ws) (fun u hu => h u (List.mem_cons_of_mem w hu))

/-- Characters of a join are spaces or characters of the words. -/
lemma mem_joinWs :
    ∀ (ws : List Str) (c : Char), c ∈ joinWs ws → c = ' ' ∨ ∃ w ∈ ws, c ∈ w
  | [] => by intro c hc; simp [joinWs] at hc
  | [w] => by
    intro c hc
    exact Or.inr ⟨w, by simp, hc⟩
  | w :: w' :: ws => by
    intro c hc
    have hj : joinWs (w :: w' :: ws) = w ++ ' ' :: joinWs (w' :: ws) := rfl
    rw [hj] at hc
    rcases List.mem_append.mp hc with h1 | h1
    · exact Or.inr ⟨w, by simp, h1⟩
    · rcases List.mem_cons.mp h1 with rfl | h2
      · exact Or.inl rfl
      · rcases mem_joinWs (w' :: ws) c h2 with h3 | ⟨u, hu, hcu⟩
        · exact Or.inl h3
        · exact Or.inr ⟨u, List.mem_cons_of_mem w hu, hcu⟩

/-- A string of `toLower`-fixed characters is fixed by `lowerStr`. -/
lemma lowerStr_fix_of_chars (s : Str) (h : ∀ c ∈ s, Char.toLower c = c) :
    lowerStr s = s := by
  simp only [lowerStr]
  rw [List.map_congr_left h]
  simp

/-- Claim C6: for every non-empty text, `preprocess_text` is
idempotent.  After one pass the text is lowercase with single-space
separators; if the first pass kept stop-words it did so because the
sentence had at most 3 words, which is still true on the second pass,
and if it removed them there are none left to remove. -/
theorem C6_preprocess_idempotent (t : Str) (h : t ≠ []) :
    Concierge.preprocess_text (Concierge.preprocess_text t) =
      Concierge.preprocess_text t := by
  by_cases ho : Concierge.preprocess_text t = []
  · rw [ho]
    rfl
  · have hpre : Concierge.preprocess_text t =
        joinWs ((splitWs (lowerStr t)).filter
          (fun w => !Concierge.stop_words.contains w ||
            decide ((splitWs (lowerStr t)).length ≤ 3))) := by
      simp only [Concierge.preprocess_text]
      rw [if_neg h]
    set words := splitWs (lowerStr t) with hwords
    set kept := words.filter
      (fun w => !Concierge.stop_words.contains w || decide (words.length ≤ 3))
      with hkept
    have hws_ok : ∀ w ∈ kept, w ≠ [] ∧ ∀ c ∈ w, isSpaceB c = false :=
      fun w hw => splitWs_ok (lowerStr t) w (List.mem_of_mem_filter hw)
    have hlowfix : lowerStr (joinWs kept) = joinWs kept := by
      apply lowerStr_fix_of_chars
      intro c hc
      rcases mem_joinWs kept c hc with rfl | ⟨w, hw, hcw⟩
      · decide
      · have hcs : c ∈ lowerStr t :=
          splitWs_chars (lowerStr t) w (List.mem_of_mem_filter hw) c hcw
        rcases List.mem_map.mp hcs with ⟨d, _, rfl⟩
        exact toLower_idem d
    have hsplit2 : splitWs (lowerStr (joinWs kept)) = kept := by
      rw [hlowfix]
      exact splitWs_joinWs kept hws_ok
    have hfilter2 : kept.filter
        (fun w => !Concierge.stop_words.contains w || decide (kept.length ≤ 3)) =
          kept := by
      rw [List.filter_eq_self]
      intro w hw
      by_cases hlen : words.length ≤ 3
      · have hkw : kept = words := by
          rw [hkept, List.filter_eq_self]
          intro a _
          simp [hlen]
        have hkl : kept.length ≤ 3 := by rw [hkw]; exact hlen
        simp [hkl]
      · have hwk := List.of_mem_filter hw
        rcases Bool.or_eq_true_iff.mp hwk with h1 | h1
        · simp only [h1, Bool.true_or]
        · rw [decide_eq_true_eq] at h1
          exact absurd h1 hlen
    rw [hpre] at ho ⊢
    simp only [Concierge.preprocess_text]
    rw [if_neg ho, hsplit2, hfilter2]

/-- Witness for C6: idempotence at the concrete sentence
"find the best shoes for me now" (more than 3 words, so the stop-words
"the" and "for" are removed on the first pass). -/
theorem C6_preprocess_idempotent_witness :
    Concierge.preprocess_text
        (Concierge.preprocess_text (cs "find the best shoes for me now")) =
      Concierge.preprocess_text (cs "find the best shoes for me now") :=
  C6_preprocess_idempotent (cs "find the best shoes for me now") (by decide)

/-- Claim C7: any token returned by `extract_product_id` is at least 8
characters long, is not a denylisted category word, and contains an
uppercase letter or digit; concretely, "add OLJCESPC7Z to cart" yields
"OLJCESPC7Z" and "add mug to cart" yields nothing. -/
theorem C7_extract_product_id :
    (∀ msg tok : Str, Concierge.extract_product_id msg = some tok →
      8 ≤ tok.length ∧
        Concierge.product_id_denylist.contains (lowerStr tok) = false ∧
        tok.any (fun ch => ch.isUpper || ch.isDigit) = true) ∧
    Concierge.extract_product_id (cs "add OLJCESPC7Z to cart") =
      some (cs "OLJCESPC7Z") ∧
    Concierge.extract_product_id (cs "add mug to cart") = none := by
  refine ⟨?_, by decide, by decide⟩
  intro msg tok h
  obtain ⟨r, _, hval⟩ := List.exists_of_findSome?_eq_some h
  cases r with
  | none => simp at hval
  | some c =>
    simp only [Option.some_bind] at hval
    by_cases hv : Concierge.validProductId c = true
    · rw [if_pos hv] at hval
      have hc : c = tok := by simpa using hval
      subst hc
      have h1 := hv
      simp only [Concierge.validProductId, Bool.and_eq_true, Bool.not_eq_true',
        decide_eq_true_eq] at h1
      exact ⟨h1.1.1, h1.1.2, h1.2⟩
    · rw [if_neg hv] at hval
      simp at hval

/-- Witness for C7: the returned token of the concrete extraction
satisfies all three validation facts. -/
theorem C7_extract_product_id_witness :
    8 ≤ (cs "OLJCESPC7Z").length ∧
      Concierge.product_id_denylist.contains (lowerStr (cs "OLJCESPC7Z")) = false ∧
      (cs "OLJCESPC7Z").any (fun ch => ch.isUpper || ch.isDigit) = true :=
  C7_extract_product_id.1 (cs "add OLJCESPC7Z to cart") (cs "OLJCESPC7Z")
    (by decide)

/-- Claim C8 shows a code bug: the Response Composer formats the raw
nanos field instead of `nanos / 10_000_000`.  A $55.99 price
(`units = 55`, `nanos = 990000000`) renders as "$55.990000000" instead
of "$55.99", and `nanos = 5_000_000` renders as "$12.5000000" instead
of the truncated "$12.00" the claim requires.  The streamlit UI
formats the same backend prices with the division, matching the claim. -/
theorem C8_price_format_bug :
    formatPriceCode 55 990000000 = "$55.990000000" ∧
      formatPriceSpec 55 990000000 = "$55.99" ∧
      formatPriceCode 55 990000000 ≠ formatPriceSpec 55 990000000 ∧
      formatPriceCode 12 5000000 = "$12.5000000" ∧
      formatPriceSpec 12 5000000 = "$12.00" ∧
      formatPriceCode 12 5000000 ≠ formatPriceSpec 12 5000000 := by
  refine ⟨by decide, by decide, by decide, by decide, by decide, by decide⟩

/-- Claim C9: an add-to-cart request with an empty (or whitespace-only)
user id, an empty (or whitespace-only) product id, or a non-positive
quantity returns an error result and issues no collaborator call, in
both the agent (`add_to_cart`) and the MCP server (`add_item_to_cart`);
with no call issued, the cart state is untouched. -/
theorem C9_invalid_add_fails_fast (post : CartCall → CartResult)
    (u p : Str) (q : Int)
    (h : stripWs u = [] ∨ stripWs p = [] ∨ q ≤ 0) :
    ((Concierge.add_to_cart post u p q).1.status = cs "error" ∧
      (Concierge.add_to_cart post u p q).2 = []) ∧
    ((MCPServer.add_item_to_cart post u p q).1.status = cs "error" ∧
      (MCPServer.add_item_to_cart post u p q).2 = []) := by
  unfold Concierge.add_to_cart MCPServer.add_item_to_cart
  by_cases hu : stripWs u = []
  · simp [hu]
  · by_cases hp : stripWs p = []
    · simp [hu, hp]
    · have hq : q ≤ 0 := by tauto
      simp [hu, hp, hq]

/-- Witness for C9: a request with an empty user id is rejected with no
collaborator call. -/
theorem C9_invalid_add_fails_fast_witness :
    ((Concierge.add_to_cart
        (fun _ => { status := cs "success", message := cs "" })
        (cs "") (cs "OLJCESPC7Z") 1).1.status = cs "error" ∧
      (Concierge.add_to_cart
        (fun _ => { status := cs "success", message := cs "" })
        (cs "") (cs "OLJCESPC7Z") 1).2 = []) ∧
    ((MCPServer.add_item_to_cart
        (fun _ => { status := cs "success", message := cs "" })
        (cs "") (cs "OLJCESPC7Z") 1).1.status = cs "error" ∧
      (MCPServer.add_item_to_cart
        (fun _ => { status := cs "success", message := cs "" })
        (cs "") (cs "OLJCESPC7Z") 1).2 = []) :=
  C9_invalid_add_fails_fast _ (cs "") (cs "OLJCESPC7Z") 1 (Or.inl (by decide))

unseal Rat.add Rat.mul Rat.inv in
/-- Claim C10: the budget extractor accepts a fractional amount only
when exactly two decimal digits follow the dot: "under $45.50" yields
45.5, while "under $45.5" yields 45 — the lone trailing ".5" is
ignored and only the integer part is captured. -/
theorem C10_extract_budget :
    Concierge.extract_budget (cs "under $45.50") = some (91 / 2) ∧
      Concierge.extract_budget (cs "under $45.5") = some 45 := by
  refine ⟨by decide, by decide⟩
